import Mathlib

/-!
Verification development for the Photo-Finder repository
(`photo_finder/hasher.py`, `photo_finder/cache.py`, `photo_finder/engine.py`).

Shallow embedding conventions:
* file paths are strings (`Path := String`); `Path.resolve()` is an abstract
  canonicalization oracle `resolve : Path → Path` passed as a parameter;
* a perceptual hash value (`imagehash.ImageHash`) is its flattened boolean
  bit array, modelled as `List Bool`;
* file sizes are `Nat`, modification times are `Int` (the code only ever
  compares mtimes for equality, never does arithmetic on them, so the
  float representation is modelled by an arbitrary discrete timestamp);
* Python float arithmetic on similarity percentages and size bounds is
  modelled over `ℚ` (the formulas `(1 - d / n) * 100` and
  `size * (1 ± tol)` are embedded exactly as written in the source);
* filesystem and image-decoding effects are oracle functions
  (`statO : Path → Option (Nat × Int)`, `none` = the `stat` call raises
  `OSError`; `hashO : Path → Option (List Bool)`, `none` = the image
  cannot be decoded/hashed);
* a raised exception that escapes a function is an `Except .error`.
-/

namespace PhotoFinder

abbrev Path := String

/-- `HashAlgorithm` enum from `hasher.py` (four named algorithms). -/
inductive HashAlgorithm where
  | average
  | perceptual
  | difference
  | wavelet
deriving DecidableEq, Repr

/-- `ImageHashResult` from `hasher.py`: hash result for an image with
metadata.  `bits` models `hash_value` (the flattened bit array of the
`imagehash.ImageHash`). -/
structure ImageHashResult where
  path : Path
  bits : List Bool
  algorithm : HashAlgorithm
  file_size : Nat
  file_mtime : Int
deriving DecidableEq, Repr

/-- Hamming distance of two bit arrays: `imagehash` implements
`h1 - h2` as `count_nonzero(h1.hash != h2.hash)`. -/
def hammingDistance (a b : List Bool) : Nat :=
  ((a.zip b).filter (fun p => p.1 != p.2)).length

/-- `ImageHashResult.distance`: Hamming distance between two hashes. -/
def ImageHashResult.distance (r s : ImageHashResult) : Nat :=
  hammingDistance r.bits s.bits

/-- `ImageHashResult.similarity_pct`:
`max(0.0, (1.0 - dist / max_bits) * 100.0)` where
`max_bits = self.hash_value.hash.size` (the receiver's own bit count). -/
def ImageHashResult.similarity_pct (r s : ImageHashResult) : ℚ :=
  max 0 ((1 - (r.distance s : ℚ) / (r.bits.length : ℚ)) * 100)

/-- `MatchResult` from `hasher.py`. -/
structure MatchResult where
  reference : Path
  candidate : Path
  distance : Nat
  similarity_pct : ℚ
  file_size : Nat
deriving DecidableEq, Repr

lemma hammingDistance_self (a : List Bool) : hammingDistance a a = 0 := by
  induction a with
  | nil => rfl
  | cons x xs ih =>
      simp only [hammingDistance, List.zip, List.zipWith, bne_self_eq_false,
        List.filter_cons_of_neg, Bool.false_eq_true, not_false_iff]
      exact ih

lemma similarity_pct_nonneg (r s : ImageHashResult) :
    0 ≤ r.similarity_pct s := le_max_left _ _

/-! ## Hash cache (`cache.py`)

The `image_hashes` table is a list of rows; the primary key
`(path, algorithm, hash_size)` makes at most one row per key relevant —
`upsertRow` mirrors `ON CONFLICT(path, algorithm, hash_size) DO UPDATE`.
The stored hex string `hash` is modelled by its decoded bit array. -/

/-- `CachedHash` from `cache.py` (also the shape of an `image_hashes` row). -/
structure CachedHash where
  path : Path
  mtime : Int
  size : Nat
  algorithm : HashAlgorithm
  hash_size : Nat
  hash_bits : List Bool
  width : Option Nat
  height : Option Nat
deriving DecidableEq, Repr

abbrev HashDB := List CachedHash

/-- Primary key of an `image_hashes` row. -/
def rowKey (r : CachedHash) : Path × HashAlgorithm × Nat :=
  (r.path, r.algorithm, r.hash_size)

/-- One `INSERT ... ON CONFLICT(path, algorithm, hash_size) DO UPDATE SET
mtime=excluded.mtime, size=excluded.size, hash=excluded.hash,
width=excluded.width, height=excluded.height`. -/
def upsertRow (db : HashDB) (r : CachedHash) : HashDB :=
  if db.any (fun q => decide (rowKey q = rowKey r)) then
    db.map (fun q =>
      if rowKey q = rowKey r then
        { q with mtime := r.mtime, size := r.size, hash_bits := r.hash_bits,
                 width := r.width, height := r.height }
      else q)
  else db ++ [r]

/-- The row `upsert_many` builds for one `ImageHashResult` `h` given the
run's configured `hash_size` (`hs`): path is re-resolved, mtime/size come
from the result, width/height are written as `NULL`. -/
def rowOf (resolve : Path → Path) (h : ImageHashResult) (hs : Nat) : CachedHash :=
  { path := resolve h.path, mtime := h.file_mtime, size := h.file_size,
    algorithm := h.algorithm, hash_size := hs, hash_bits := h.bits,
    width := none, height := none }

/-- `HashCache.upsert_many` (with a non-`None` `hash_size` argument, which
is how the engine always calls it): `executemany` upserts row by row. -/
def upsert_many (db : HashDB) (hashes : List ImageHashResult)
    (hs : Nat) (resolve : Path → Path) : HashDB :=
  hashes.foldl (fun d h => upsertRow d (rowOf resolve h hs)) db

/-- Point lookup in the `image_hashes` table (the primary key guarantees
at most one row per `(path, algorithm, hash_size)` in a real database). -/
def findRow (db : HashDB) (p : Path) (a : HashAlgorithm) (hs : Nat) :
    Option CachedHash :=
  db.find? (fun q => decide (rowKey q = (p, a, hs)))

/-- `HashCache.to_result`: rebuild an `ImageHashResult` from a cache row. -/
def to_result (c : CachedHash) : ImageHashResult :=
  { path := c.path, bits := c.hash_bits, algorithm := c.algorithm,
    file_size := c.size, file_mtime := c.mtime }

/-- `_SQLITE_MAX_VARS = 900  # stay well under SQLITE_MAX_VARIABLE_NUMBER (999)`. -/
def SQLITE_MAX_VARS : Nat := 900

/-- `range(0, len(l), n)` slicing: split a list into consecutive chunks of
at most `n` elements (fuel = list length; one chunk per step suffices for
`n ≥ 1`). -/
def chunksOfAux (n : Nat) : Nat → List Path → List (List Path)
  | 0, _ => []
  | _, [] => []
  | fuel + 1, l => l.take n :: chunksOfAux n fuel (l.drop n)

def chunksOf (n : Nat) (l : List Path) : List (List Path) :=
  chunksOfAux n l.length l

/-- The WHERE clause of one `get_cached` chunk query:
`algorithm = ? AND hash_size = ? AND path IN (chunk)`. -/
def rowMatches (a : HashAlgorithm) (hs : Nat) (chunk : List Path)
    (r : CachedHash) : Bool :=
  decide (r.algorithm = a ∧ r.hash_size = hs ∧ r.path ∈ chunk)

/-- Rows returned by one chunk's SELECT. -/
def queryChunk (db : HashDB) (a : HashAlgorithm) (hs : Nat)
    (chunk : List Path) : List CachedHash :=
  db.filter (rowMatches a hs chunk)

/-- `cached[Path(row[0])] = CachedHash(...)` for each returned row: the
result dict, modelled as a function keyed by the stored path. -/
def insertRows (m : Path → Option CachedHash) (rows : List CachedHash) :
    Path → Option CachedHash :=
  rows.foldl (fun acc r => fun p => if p = r.path then some r else acc p) m

/-- `HashCache.get_cached`: normalize every input path via `resolve`, query
in chunks of `_SQLITE_MAX_VARS` paths, and merge all rows into one map. -/
def get_cached (db : HashDB) (paths : List Path) (a : HashAlgorithm)
    (hs : Nat) (resolve : Path → Path) : Path → Option CachedHash :=
  let path_list := paths.map resolve
  (chunksOf SQLITE_MAX_VARS path_list).foldl
    (fun m chunk => insertRows m (queryChunk db a hs chunk))
    (fun _ => none)

/-- Specification-side comparator for `get_cached`: the same lookup issued
as one single unchunked query over the whole normalized path list. -/
def get_cached_unchunked (db : HashDB) (paths : List Path)
    (a : HashAlgorithm) (hs : Nat) (resolve : Path → Path) :
    Path → Option CachedHash :=
  insertRows (fun _ => none) (queryChunk db a hs (paths.map resolve))

/-! ## Directory index (`cache.py`: `get_index`) -/

/-- One `directory_meta` row. -/
structure DirMetaRow where
  root : Path
  dir_mtime : Int
  file_count : Nat
  scanned_at : Int
deriving DecidableEq, Repr

/-- One `directory_index` row. -/
structure DirIndexRow where
  root : Path
  path : Path
  size : Nat
  mtime : Int
deriving DecidableEq, Repr

/-- `HashCache.get_index`: `dirStat root` models `root.stat().st_mtime`
(`none` = `OSError`).  Returns the stored member paths only when the meta
row exists, the fresh directory mtime equals the stored one, the member
row set is non-empty, and its cardinality equals the stored file count. -/
def get_index (meta : List DirMetaRow) (idx : List DirIndexRow)
    (resolve : Path → Path) (dirStat : Path → Option Int) (root : Path) :
    Option (List Path) :=
  let resolved := resolve root
  match meta.find? (fun m => m.root == resolved) with
  | none => none
  | some m =>
    match dirStat root with
    | none => none
    | some current_mtime =>
      if current_mtime != m.dir_mtime then none
      else
        let rows := (idx.filter (fun r => r.root == resolved)).map (fun r => r.path)
        if rows.isEmpty then none
        else if rows.length != m.file_count then none
        else some rows

/-! ## Search engine (`engine.py`)

`search` is embedded stage by stage.  Filesystem and decoding effects are
oracles bundled in `FsEnv`; the directory listing (stage 2: directory
index lookup or `collect_image_paths` walk) is given at its output
boundary as `FsEnv.listing`.  Worker-pool concurrency is modelled by
processing each batch in submission order (`imap_unordered` only permutes
completion order inside a batch; no claim depends on that order), and an
operator interruption (`KeyboardInterrupt`) is modelled by a `budget`:
`some b` means the signal arrives when the pool loop is about to process
file number `b + 1`. -/

/-- `SearchConfig` fields the embedded pipeline observes.  `max_workers`,
`io_workers` and `show_progress` only set pool widths / console output and
have no observable effect here; `use_dir_index` / `refresh_dir_index` only
select how `FsEnv.listing` is produced. -/
structure SearchConfig where
  algorithm : HashAlgorithm
  hash_size : Nat
  threshold : ℚ
  use_cache : Bool
  size_tolerance_pct : Option ℚ
  batch_size : Nat
deriving Repr

/-- `SearchStats` (counters only; `elapsed_seconds` is wall-clock time and
is not modelled). -/
structure SearchStats where
  total_files : Nat
  images_scanned : Nat
  images_failed : Nat
  matches_found : Nat
deriving DecidableEq, Repr

/-- Exceptions that can escape `search`: the two documented fatal errors
(`FileNotFoundError` for the reference / the directory, `ValueError` for
an unhashable reference) and an unhandled `OSError` escaping a `stat`
call. -/
inductive SearchError where
  | refNotFound
  | dirNotFound
  | refUnhashable
  | osError (p : Path)
deriving DecidableEq, Repr

/-- Filesystem / decoding oracles for one run.  `statO p = none` means
`p.stat()` raises `OSError`; `hashO p = none` means the image at `p`
cannot be decoded and hashed (`compute_hash` swallows the exception). -/
structure FsEnv where
  resolve : Path → Path
  refExists : Bool
  dirIsDir : Bool
  statO : Path → Option (Nat × Int)
  hashO : Path → Option (List Bool)
  listing : List Path

/-- Stage 1: `compute_hash(reference_image, algorithm, hash_size)` — the
hash function runs first, then (sizes not pre-fetched) one `stat`; any
exception yields `None`. -/
def refHashOf (cfg : SearchConfig) (env : FsEnv) (reference_image : Path) :
    Option ImageHashResult :=
  let refR := env.resolve reference_image
  match env.hashO refR, env.statO refR with
  | some bits, some sm =>
      some { path := refR, bits := bits, algorithm := cfg.algorithm,
             file_size := sm.1, file_mtime := sm.2 }
  | _, _ => none

/-- Stage 2 output: normalize all candidate paths and exclude the
(resolved) reference image:
`[p.resolve() for p in candidates if p.resolve() != reference_image]`. -/
def candidatesStage (env : FsEnv) (reference_image : Path) : List Path :=
  let refR := env.resolve reference_image
  (env.listing.filter (fun p => env.resolve p != refR)).map env.resolve

/-- Stage 3: `executor.map(_stat_path, candidates)` consumed in order; the
first `stat` that raises propagates the exception out of the loop. -/
def statCollect (statO : Path → Option (Nat × Int)) :
    List Path → Except Path (List (Path × Nat × Int))
  | [] => .ok []
  | p :: ps =>
    match statO p with
    | none => .error p
    | some sm => (statCollect statO ps).map (fun rest => (p, sm.1, sm.2) :: rest)

/-- `stats_map` as a lookup function (`dict` built from the stat tuples). -/
def statsMapOf (sl : List (Path × Nat × Int)) : Path → Option (Nat × Int) :=
  fun p => (sl.find? (fun q => q.1 == p)).map (fun q => (q.2.1, q.2.2))

/-- Stage 4: optional size pre-filter.  `int()` truncation equals `⌊·⌋` on
the non-negative bounds involved (for `tol > 1` the lower bound is
negative and every `Nat` size passes under either rounding). -/
def sizeFilterStage (cfg : SearchConfig) (ref_size : Nat)
    (statsMap : Path → Option (Nat × Int)) (cands : List Path) : List Path :=
  match cfg.size_tolerance_pct with
  | none => cands
  | some pct =>
    let tol : ℚ := max 0 pct / 100
    let min_size : Int := Rat.floor ((ref_size : ℚ) * (1 - tol))
    let max_size : Int := Rat.floor ((ref_size : ℚ) * (1 + tol))
    cands.filter (fun p =>
      let sz : Int := (((statsMap p).getD (0, 0)).1 : Nat)
      decide (min_size ≤ sz) && decide (sz ≤ max_size))

/-- Python `dict` insertion: overwrite in place if the key is present,
append otherwise. -/
def dictInsert (m : List (Path × ImageHashResult)) (p : Path)
    (v : ImageHashResult) : List (Path × ImageHashResult) :=
  if m.any (fun q => decide (q.1 = p)) then
    m.map (fun q => if q.1 = p then (p, v) else q)
  else m ++ [(p, v)]

/-- Stage 5 loop body: split candidates into `cached_results` (entry
present and stored size/mtime equal the fresh ones) and `missing`.
`stats_map.get(path, (None, None))` compares `None` against the stored
numbers when the stat tuple is absent, which is always unequal. -/
def cacheStep (cached : Path → Option CachedHash)
    (statsMap : Path → Option (Nat × Int))
    (acc : List (Path × ImageHashResult) × List Path) (p : Path) :
    List (Path × ImageHashResult) × List Path :=
  match cached p with
  | none => (acc.1, acc.2 ++ [p])
  | some e =>
    match statsMap p with
    | some sm =>
      if sm.1 = e.size ∧ sm.2 = e.mtime then
        (dictInsert acc.1 p (to_result e), acc.2)
      else (acc.1, acc.2 ++ [p])
    | none => (acc.1, acc.2 ++ [p])

def cacheLoop (cached : Path → Option CachedHash)
    (statsMap : Path → Option (Nat × Int)) (candidates : List Path) :
    List (Path × ImageHashResult) × List Path :=
  candidates.foldl (cacheStep cached statsMap) ([], [])

/-- Stage 5: only consult the cache when it is enabled and there are
candidates; otherwise every candidate is missing. -/
def cacheStage (cfg : SearchConfig) (resolve : Path → Path) (db : HashDB)
    (statsMap : Path → Option (Nat × Int)) (cands : List Path) :
    List (Path × ImageHashResult) × List Path :=
  if cfg.use_cache ∧ cands ≠ [] then
    cacheLoop (get_cached db cands cfg.algorithm cfg.hash_size resolve)
      statsMap cands
  else ([], cands)

/-- `_compute_hash_worker`: `compute_hash` with pre-fetched size/mtime
(defaults `(0, 0.0)` when the stat tuple is absent). -/
def workerOf (cfg : SearchConfig) (env : FsEnv)
    (statsMap : Path → Option (Nat × Int)) (p : Path) :
    Option ImageHashResult :=
  (env.hashO p).map (fun bits =>
    { path := p, bits := bits, algorithm := cfg.algorithm,
      file_size := ((statsMap p).getD (0, 0)).1,
      file_mtime := ((statsMap p).getD (0, 0)).2 })

/-- Stage 6: the batched pool loop.  Per chunk: collect each worker
result (`None` included, mirroring `results.append(result)`), then flush
the non-`None` ones (`if cache and chunk_results`).  With `budget = some
b`, the interruption fires when file `b + 1` is about to be dispatched:
the partial chunk's results are kept, its flush is skipped, and the
`except KeyboardInterrupt` in `search` absorbs the exception. -/
def runChunks (worker : Path → Option ImageHashResult) (hs : Nat)
    (resolve : Path → Path) (useCache : Bool) :
    List (List Path) → HashDB → Option Nat →
    List (Option ImageHashResult) × HashDB × Bool
  | [], db, _ => ([], db, false)
  | c :: cs, db, none =>
      let rs := c.map worker
      let flushed := rs.filterMap id
      let db1 := if useCache ∧ flushed ≠ [] then upsert_many db flushed hs resolve else db
      let rest := runChunks worker hs resolve useCache cs db1 none
      (rs ++ rest.1, rest.2.1, rest.2.2)
  | c :: cs, db, some b =>
      if c.length ≤ b then
        let rs := c.map worker
        let flushed := rs.filterMap id
        let db1 := if useCache ∧ flushed ≠ [] then upsert_many db flushed hs resolve else db
        let rest := runChunks worker hs resolve useCache cs db1 (some (b - c.length))
        (rs ++ rest.1, rest.2.1, rest.2.2)
      else ((c.take b).map worker, db, true)

/-- The `MatchResult` literal built at `engine.py:296`. -/
def mkMatch (ref_hash res : ImageHashResult) : MatchResult :=
  { reference := ref_hash.path, candidate := res.path,
    distance := ref_hash.distance res,
    similarity_pct := ref_hash.similarity_pct res,
    file_size := res.file_size }

/-- Stage 7 loop: count failures and scans, keep candidates whose
similarity reaches the threshold, in `results` order. -/
def rankLoop (ref_hash : ImageHashResult) (threshold : ℚ) :
    List (Option ImageHashResult) → List MatchResult × Nat × Nat
  | [] => ([], 0, 0)
  | none :: rest =>
      let acc := rankLoop ref_hash threshold rest
      (acc.1, acc.2.1, acc.2.2 + 1)
  | some res :: rest =>
      let acc := rankLoop ref_hash threshold rest
      if threshold ≤ ref_hash.similarity_pct res then
        (mkMatch ref_hash res :: acc.1, acc.2.1 + 1, acc.2.2)
      else (acc.1, acc.2.1 + 1, acc.2.2)

/-- Stable insertion keeping descending `similarity_pct` order: the new
element (earlier in the unsorted list) goes in front of the first element
whose similarity does not exceed it. -/
def insertDesc (x : MatchResult) : List MatchResult → List MatchResult
  | [] => [x]
  | y :: ys =>
      if y.similarity_pct ≤ x.similarity_pct then x :: y :: ys
      else y :: insertDesc x ys

/-- `matches.sort(key=lambda m: m.similarity_pct, reverse=True)`:
Python's sort is stable, and any stable descending sort is extensionally
this insertion sort. -/
def sortDesc : List MatchResult → List MatchResult
  | [] => []
  | x :: xs => insertDesc x (sortDesc xs)

/-- Stage 7: threshold filter, then the final sort. -/
def rankStage (ref_hash : ImageHashResult) (threshold : ℚ)
    (results : List (Option ImageHashResult)) :
    List MatchResult × Nat × Nat :=
  let acc := rankLoop ref_hash threshold results
  (sortDesc acc.1, acc.2.1, acc.2.2)

/-- `engine.search`, assembled from the stages above. -/
def search (cfg : SearchConfig) (env : FsEnv) (db : HashDB)
    (reference_image : Path) (budget : Option Nat) :
    Except SearchError (List MatchResult × SearchStats × HashDB) :=
  if !env.refExists then .error .refNotFound
  else if !env.dirIsDir then .error .dirNotFound
  else
    match refHashOf cfg env reference_image with
    | none => .error .refUnhashable
    | some ref_hash =>
      let refR := env.resolve reference_image
      let candidates := candidatesStage env reference_image
      if candidates.isEmpty then
        .ok ([], { total_files := 0, images_scanned := 0, images_failed := 0,
                   matches_found := 0 }, db)
      else
        match statCollect env.statO candidates with
        | .error p => .error (.osError p)
        | .ok sl =>
          let statsMap := statsMapOf sl
          match env.statO refR with
          | none => .error (.osError refR)
          | some ref_stat =>
            let cands2 := sizeFilterStage cfg ref_stat.1 statsMap candidates
            let split := cacheStage cfg env.resolve db statsMap cands2
            let chunks := chunksOf cfg.batch_size split.2
            let run := runChunks (workerOf cfg env statsMap) cfg.hash_size
              env.resolve cfg.use_cache chunks db budget
            let results := run.1 ++ split.1.map (fun q => some q.2)
            let ranked := rankStage ref_hash cfg.threshold results
            .ok (ranked.1,
                 { total_files := cands2.length, images_scanned := ranked.2.1,
                   images_failed := ranked.2.2,
                   matches_found := ranked.1.length }, run.2.1)

/-! ## Theorems -/

/-- Claim C8: for fingerprints with equal-length (non-empty) bit vectors,
the similarity percentage equals `max(0, (1 - distance / total_bits) *
100)` with `distance` the Hamming distance, hence is never negative, and
identical bit vectors give distance `0` and similarity `100`. -/
theorem similarity_pct_formula (r s : ImageHashResult)
    (_hlen : r.bits.length = s.bits.length) (_hpos : 0 < r.bits.length) :
    r.similarity_pct s
        = max 0 ((1 - (r.distance s : ℚ) / (r.bits.length : ℚ)) * 100)
      ∧ 0 ≤ r.similarity_pct s
      ∧ (r.bits = s.bits → r.distance s = 0 ∧ r.similarity_pct s = 100) := by
  refine ⟨rfl, similarity_pct_nonneg r s, fun hbits => ?_⟩
  have hd : r.distance s = 0 := by
    simp [ImageHashResult.distance, hbits, hammingDistance_self]
  refine ⟨hd, ?_⟩
  simp [ImageHashResult.similarity_pct, hd]

/-- Concrete fingerprints for witnesses. -/
def wRef : ImageHashResult :=
  { path := "/photos/ref.png", bits := [true, false, true, true],
    algorithm := .average, file_size := 10, file_mtime := 5 }

def wDup : ImageHashResult :=
  { path := "/photos/library/dup.png", bits := [true, false, true, true],
    algorithm := .average, file_size := 10, file_mtime := 7 }

theorem similarity_pct_formula_witness :
    wRef.bits.length = wDup.bits.length ∧ 0 < wRef.bits.length ∧
      (wRef.bits = wDup.bits →
        wRef.distance wDup = 0 ∧ wRef.similarity_pct wDup = 100) :=
  ⟨by decide, by decide,
    (similarity_pct_formula wRef wDup (by decide) (by decide)).2.2⟩

/-- Claim C5 (amended): `get_index` returns the stored member path list
iff a metadata row is found for the resolved root, the fresh directory
mtime (`none` on `OSError`) equals the stored one, the stored member row
set is NON-EMPTY, and its size equals the stored file count; in every
other case (including a consistent empty index) it returns `none`. -/
theorem get_index_characterization (meta : List DirMetaRow)
    (idx : List DirIndexRow) (resolve : Path → Path)
    (dirStat : Path → Option Int) (root : Path) (l : List Path) :
    get_index meta idx resolve dirStat root = some l ↔
      ∃ m, meta.find? (fun q => q.root == resolve root) = some m ∧
        dirStat root = some m.dir_mtime ∧
        ((idx.filter (fun r => r.root == resolve root)).map (fun r => r.path)) ≠ [] ∧
        ((idx.filter (fun r => r.root == resolve root)).map (fun r => r.path)).length
          = m.file_count ∧
        l = (idx.filter (fun r => r.root == resolve root)).map (fun r => r.path) := by
  unfold get_index
  cases hfind : List.find? (fun q => q.root == resolve root) meta with
  | none => simp [hfind]
  | some m =>
    cases hstat : dirStat root with
    | none => simp [hfind, hstat]
    | some cur =>
      simp only [hfind, hstat, Option.some.injEq]
      by_cases hmt : cur = m.dir_mtime
      · subst hmt
        simp only [bne_self_eq_false, Bool.false_eq_true, if_false]
        by_cases hemp :
            ((idx.filter (fun r => r.root == resolve root)).map (fun r => r.path)) = []
        · simp [hemp]
        · by_cases hcnt :
              ((idx.filter (fun r => r.root == resolve root)).map
                (fun r => r.path)).length = m.file_count
          · simp [List.isEmpty_iff, hemp, hcnt]
            exact eq_comm
          · simp [List.isEmpty_iff, hemp, hcnt]
            intro h
            exact absurd h (by simpa using hcnt)
      · have hb : (cur != m.dir_mtime) = true := by
          simp [bne_iff_ne, hmt]
        simp [hb, hmt]

/-- Helper for reasoning about the `get_cached` result dict: the last row
of `rows` whose stored path is `p` (later rows overwrite earlier ones). -/
def lastMatch (p : Path) : List CachedHash → Option CachedHash
  | [] => none
  | r :: rows =>
    match lastMatch p rows with
    | some x => some x
    | none => if r.path = p then some r else none

lemma insertRows_apply (rows : List CachedHash) :
    ∀ (m : Path → Option CachedHash) (p : Path),
      insertRows m rows p =
        match lastMatch p rows with
        | some x => some x
        | none => m p := by
  induction rows with
  | nil => intro m p; rfl
  | cons r rows ih =>
    intro m p
    show insertRows (fun q => if q = r.path then some r else m q) rows p = _
    rw [ih]
    cases hl : lastMatch p rows with
    | some x => simp [lastMatch, hl]
    | none =>
      by_cases hp : r.path = p
      · simp [lastMatch, hl, hp]
      · have hp2 : ¬p = r.path := fun h => hp h.symm
        simp [lastMatch, hl, hp, hp2]

/-- Rows of the `image_hashes` table matching algorithm, hash size, and a
single path. -/
def queryFor (db : HashDB) (a : HashAlgorithm) (hs : Nat) (p : Path) :
    List CachedHash :=
  db.filter (fun r => decide (r.algorithm = a ∧ r.hash_size = hs ∧ r.path = p))

lemma lastMatch_cons_ne {r : CachedHash} {p : Path} (hp : r.path ≠ p)
    (l : List CachedHash) : lastMatch p (r :: l) = lastMatch p l := by
  cases hl : lastMatch p l <;> simp [lastMatch, hl, hp]

lemma lastMatch_cons_eq {r : CachedHash} {p : Path} (hp : r.path = p)
    (l : List CachedHash) :
    lastMatch p (r :: l) = some ((lastMatch p l).getD r) := by
  cases hl : lastMatch p l <;> simp [lastMatch, hl, hp]

lemma lastMatch_queryChunk (db : HashDB) (a : HashAlgorithm) (hs : Nat)
    (chunk : List Path) (p : Path) :
    lastMatch p (queryChunk db a hs chunk) =
      if p ∈ chunk then lastMatch p (queryFor db a hs p) else none := by
  induction db with
  | nil => simp [queryChunk, queryFor, lastMatch]
  | cons r db ih =>
    have hqc : queryChunk (r :: db) a hs chunk
        = if rowMatches a hs chunk r then r :: queryChunk db a hs chunk
          else queryChunk db a hs chunk := List.filter_cons
    have hqf : queryFor (r :: db) a hs p
        = if decide (r.algorithm = a ∧ r.hash_size = hs ∧ r.path = p) = true
          then r :: queryFor db a hs p else queryFor db a hs p :=
      List.filter_cons
    by_cases hp : r.path = p
    · by_cases hbase : r.algorithm = a ∧ r.hash_size = hs
      · have h2 : decide (r.algorithm = a ∧ r.hash_size = hs ∧ r.path = p) = true := by
          simp [hbase.1, hbase.2, hp]
        by_cases hc : p ∈ chunk
        · have h1 : rowMatches a hs chunk r = true := by
            simp [rowMatches, hbase.1, hbase.2, hp, hc]
          rw [hqc, if_pos h1, hqf, if_pos h2, if_pos hc,
            lastMatch_cons_eq hp, lastMatch_cons_eq hp, ih, if_pos hc]
        · have h1 : ¬ rowMatches a hs chunk r = true := by
            simp only [rowMatches, decide_eq_true_eq, not_and]
            intro _ _ hmem
            rw [hp] at hmem
            exact hc hmem
          rw [hqc, if_neg h1, ih, if_neg hc, if_neg hc]
      · have h1 : ¬ rowMatches a hs chunk r = true := by
          simp only [rowMatches, decide_eq_true_eq]
          intro h
          exact hbase ⟨h.1, h.2.1⟩
        have h2 : ¬ decide (r.algorithm = a ∧ r.hash_size = hs ∧ r.path = p) = true := by
          simp only [decide_eq_true_eq]
          intro h
          exact hbase ⟨h.1, h.2.1⟩
        rw [hqc, if_neg h1, hqf, if_neg h2, ih]
    · have h2 : ¬ decide (r.algorithm = a ∧ r.hash_size = hs ∧ r.path = p) = true := by
        simp only [decide_eq_true_eq]
        intro h
        exact hp h.2.2
      rw [hqf, if_neg h2]
      by_cases h1 : rowMatches a hs chunk r = true
      · rw [hqc, if_pos h1, lastMatch_cons_ne hp, ih]
      · rw [hqc, if_neg h1, ih]

lemma chunksOfAux_length_le (n : Nat) :
    ∀ (fuel : Nat) (l c : List Path), c ∈ chunksOfAux n fuel l → c.length ≤ n := by
  intro fuel
  induction fuel with
  | zero => intro l c hc; simp [chunksOfAux] at hc
  | succ fuel ih =>
    intro l c hc
    cases l with
    | nil => simp [chunksOfAux] at hc
    | cons x xs =>
      simp only [chunksOfAux, List.mem_cons] at hc
      rcases hc with h | h
      · subst h
        rw [List.length_take]
        exact min_le_left _ _
      · exact ih _ _ h

lemma chunksOfAux_flatten (n : Nat) (hn : 0 < n) :
    ∀ (fuel : Nat) (l : List Path), l.length ≤ fuel →
      (chunksOfAux n fuel l).flatten = l := by
  intro fuel
  induction fuel with
  | zero =>
    intro l hl
    have hl0 : l = [] := List.eq_nil_of_length_eq_zero (Nat.le_zero.mp hl)
    subst hl0
    rfl
  | succ fuel ih =>
    intro l hl
    cases l with
    | nil => rfl
    | cons x xs =>
      show ((x :: xs).take n :: chunksOfAux n fuel ((x :: xs).drop n)).flatten = x :: xs
      rw [List.flatten_cons, ih ((x :: xs).drop n) ?hfuel]
      · exact List.take_append_drop n (x :: xs)
      case hfuel =>
        rw [List.length_drop]
        simp only [List.length_cons] at hl ⊢
        omega

lemma chunksOf_flatten {n : Nat} (hn : 0 < n) (l : List Path) :
    (chunksOf n l).flatten = l :=
  chunksOfAux_flatten n hn l.length l le_rfl

lemma mem_chunksOf {n : Nat} (hn : 0 < n) (l : List Path) (p : Path) :
    (∃ c ∈ chunksOf n l, p ∈ c) ↔ p ∈ l := by
  rw [← List.mem_flatten, chunksOf_flatten hn]

lemma foldl_insertRows_apply (db : HashDB) (a : HashAlgorithm) (hs : Nat) :
    ∀ (chunks : List (List Path)) (m : Path → Option CachedHash) (p : Path),
      (chunks.foldl (fun acc c => insertRows acc (queryChunk db a hs c)) m) p
        = if (∃ c ∈ chunks, p ∈ c) ∧ (lastMatch p (queryFor db a hs p)).isSome
          then lastMatch p (queryFor db a hs p) else m p := by
  intro chunks
  induction chunks with
  | nil => intro m p; simp
  | cons c cs ih =>
    intro m p
    show (cs.foldl _ (insertRows m (queryChunk db a hs c))) p = _
    rw [ih]
    have hbase : (insertRows m (queryChunk db a hs c)) p
        = match (if p ∈ c then lastMatch p (queryFor db a hs p) else none) with
          | some x => some x
          | none => m p := by
      rw [insertRows_apply, lastMatch_queryChunk]
    by_cases hsome : (lastMatch p (queryFor db a hs p)).isSome = true
    · obtain ⟨x, hx⟩ := Option.isSome_iff_exists.mp hsome
      by_cases hc : p ∈ c
      · rw [if_pos hc, hx] at hbase
        have hcons : (∃ c' ∈ c :: cs, p ∈ c')
            ∧ (lastMatch p (queryFor db a hs p)).isSome = true :=
          ⟨⟨c, List.mem_cons_self c cs, hc⟩, hsome⟩
        rw [if_pos hcons]
        by_cases hex : ∃ c' ∈ cs, p ∈ c'
        · have hL : (∃ c' ∈ cs, p ∈ c')
              ∧ (lastMatch p (queryFor db a hs p)).isSome = true := ⟨hex, hsome⟩
          rw [if_pos hL]
        · rw [if_neg (fun h => hex h.1), hbase, hx]
      · rw [if_neg hc] at hbase
        have hiff : (∃ c' ∈ c :: cs, p ∈ c') ↔ (∃ c' ∈ cs, p ∈ c') := by
          constructor
          · rintro ⟨c', hc', hp'⟩
            rcases List.mem_cons.mp hc' with h | h
            · exact absurd (h ▸ hp') hc
            · exact ⟨c', h, hp'⟩
          · rintro ⟨c', hc', hp'⟩
            exact ⟨c', List.mem_cons_of_mem _ hc', hp'⟩
        by_cases hex : ∃ c' ∈ cs, p ∈ c'
        · have hL : (∃ c' ∈ cs, p ∈ c')
              ∧ (lastMatch p (queryFor db a hs p)).isSome = true := ⟨hex, hsome⟩
          have hR : (∃ c' ∈ c :: cs, p ∈ c')
              ∧ (lastMatch p (queryFor db a hs p)).isSome = true :=
            ⟨hiff.mpr hex, hsome⟩
          rw [if_pos hL, if_pos hR]
        · rw [if_neg (fun h => hex h.1),
            if_neg (fun h => hex (hiff.mp h.1)), hbase]
    · have hnone : lastMatch p (queryFor db a hs p) = none :=
        Option.not_isSome_iff_eq_none.mp hsome
      rw [if_neg (fun h => hsome h.2), if_neg (fun h => hsome h.2), hbase, hnone,
        ite_self]

/-- Claim C9: `get_cached` chunks the lookup so that every statement binds
at most `_SQLITE_MAX_VARS = 900` path parameters plus the two
algorithm/hash-size parameters — a constant `902` under SQLite's hard
limit of `999` — and the merged per-chunk maps coincide pointwise with a
single unchunked lookup over the whole normalized path list. -/
theorem get_cached_chunking (db : HashDB) (paths : List Path)
    (a : HashAlgorithm) (hs : Nat) (resolve : Path → Path) :
    (∀ c ∈ chunksOf SQLITE_MAX_VARS (paths.map resolve),
        c.length + 2 ≤ 902 ∧ 902 < 999)
    ∧ ∀ p, get_cached db paths a hs resolve p
        = get_cached_unchunked db paths a hs resolve p := by
  constructor
  · intro c hc
    have hle : c.length ≤ 900 := chunksOfAux_length_le _ _ _ _ hc
    exact ⟨by omega, by omega⟩
  · intro p
    simp only [get_cached, get_cached_unchunked]
    rw [foldl_insertRows_apply, insertRows_apply, lastMatch_queryChunk]
    have hmem := mem_chunksOf (n := SQLITE_MAX_VARS) (by decide)
      (paths.map resolve) p
    by_cases hpl : p ∈ paths.map resolve
    · rw [if_pos hpl]
      cases hx : lastMatch p (queryFor db a hs p) with
      | some x => simp [hmem.mpr hpl]
      | none => simp
    · rw [if_neg hpl, if_neg (fun h => hpl (hmem.mp h.1))]

/-- The freshness test of stage 5, as a partial function: the entry that
stage 5 accepts for `p`, if any. -/
def freshEntry (cached : Path → Option CachedHash)
    (statsMap : Path → Option (Nat × Int)) (p : Path) : Option CachedHash :=
  match cached p with
  | none => none
  | some e =>
    match statsMap p with
    | some sm => if sm.1 = e.size ∧ sm.2 = e.mtime then some e else none
    | none => none

lemma freshEntry_some_iff {cached : Path → Option CachedHash}
    {statsMap : Path → Option (Nat × Int)} {p : Path} {e : CachedHash} :
    freshEntry cached statsMap p = some e ↔
      cached p = some e ∧ statsMap p = some (e.size, e.mtime) := by
  unfold freshEntry
  cases hc : cached p with
  | none => simp
  | some e0 =>
    cases hs : statsMap p with
    | none => simp
    | some sm =>
      dsimp only
      by_cases hm : sm.1 = e0.size ∧ sm.2 = e0.mtime
      · rw [if_pos hm]
        constructor
        · rintro h
          cases h
          exact ⟨rfl, by rw [← hm.1, ← hm.2]⟩
        · rintro ⟨h1, h2⟩
          cases h1
          rfl
      · rw [if_neg hm]
        constructor
        · rintro h; cases h
        · rintro ⟨h1, h2⟩
          cases h1
          cases h2
          exact absurd ⟨rfl, rfl⟩ hm

lemma freshEntry_none_iff {cached : Path → Option CachedHash}
    {statsMap : Path → Option (Nat × Int)} {p : Path} :
    freshEntry cached statsMap p = none ↔
      ¬ ∃ e, cached p = some e ∧ statsMap p = some (e.size, e.mtime) := by
  constructor
  · rintro h ⟨e, he⟩
    rw [freshEntry_some_iff.mpr he] at h
    cases h
  · intro h
    cases hf : freshEntry cached statsMap p with
    | none => rfl
    | some e => exact absurd ⟨e, freshEntry_some_iff.mp hf⟩ h

lemma cacheStep_eq (cached : Path → Option CachedHash)
    (statsMap : Path → Option (Nat × Int))
    (acc : List (Path × ImageHashResult) × List Path) (p : Path) :
    cacheStep cached statsMap acc p =
      match freshEntry cached statsMap p with
      | some e => (dictInsert acc.1 p (to_result e), acc.2)
      | none => (acc.1, acc.2 ++ [p]) := by
  unfold cacheStep freshEntry
  cases cached p with
  | none => rfl
  | some e =>
    cases statsMap p with
    | none => rfl
    | some sm =>
      dsimp only
      by_cases hm : sm.1 = e.size ∧ sm.2 = e.mtime
      · rw [if_pos hm, if_pos hm]
      · rw [if_neg hm, if_neg hm]

lemma dictInsert_mem_same (m : List (Path × ImageHashResult)) (p : Path)
    (w v : ImageHashResult) : (p, v) ∈ dictInsert m p w ↔ v = w := by
  unfold dictInsert
  by_cases h : m.any (fun q => decide (q.1 = p)) = true
  · rw [if_pos h]
    constructor
    · intro hm
      obtain ⟨q, hq, heq⟩ := List.mem_map.mp hm
      by_cases hqp : q.1 = p
      · rw [if_pos hqp] at heq
        cases heq
        rfl
      · rw [if_neg hqp] at heq
        exact absurd (congrArg Prod.fst heq) hqp
    · intro hvw
      subst hvw
      obtain ⟨q, hq, hqp⟩ := List.any_eq_true.mp h
      rw [decide_eq_true_eq] at hqp
      exact List.mem_map.mpr ⟨q, hq, by rw [if_pos hqp]⟩
  · rw [if_neg h]
    rw [List.mem_append]
    constructor
    · rintro (hm | hm)
      · exact absurd (List.any_eq_true.mpr ⟨(p, v), hm, by simp⟩) h
      · cases List.mem_singleton.mp hm
        rfl
    · intro hvw
      subst hvw
      exact Or.inr (List.mem_singleton.mpr rfl)

lemma dictInsert_mem_ne (m : List (Path × ImageHashResult)) {q p : Path}
    (hne : q ≠ p) (w v : ImageHashResult) :
    (q, v) ∈ dictInsert m p w ↔ (q, v) ∈ m := by
  unfold dictInsert
  by_cases h : m.any (fun x => decide (x.1 = p)) = true
  · rw [if_pos h]
    constructor
    · intro hm
      obtain ⟨x, hx, heq⟩ := List.mem_map.mp hm
      by_cases hxp : x.1 = p
      · rw [if_pos hxp] at heq
        exact absurd (congrArg Prod.fst heq).symm hne
      · rw [if_neg hxp] at heq
        exact heq ▸ hx
    · intro hm
      refine List.mem_map.mpr ⟨(q, v), hm, ?_⟩
      rw [if_neg (by simpa using hne)]
  · rw [if_neg h, List.mem_append]
    constructor
    · rintro (hm | hm)
      · exact hm
      · exact absurd (congrArg Prod.fst (List.mem_singleton.mp hm)) hne
    · exact Or.inl

lemma cacheLoop_missing_aux (cached : Path → Option CachedHash)
    (statsMap : Path → Option (Nat × Int)) :
    ∀ (l : List Path) (cr : List (Path × ImageHashResult)) (ms : List Path),
      (l.foldl (cacheStep cached statsMap) (cr, ms)).2
        = ms ++ l.filter (fun p => (freshEntry cached statsMap p).isNone) := by
  intro l
  induction l with
  | nil => intro cr ms; simp
  | cons p l ih =>
    intro cr ms
    rw [List.foldl_cons, cacheStep_eq]
    cases hf : freshEntry cached statsMap p with
    | some e => rw [ih, List.filter_cons_of_neg (by simp [hf])]
    | none =>
      rw [ih]
      simp [hf]

lemma cacheLoop_mem_aux (cached : Path → Option CachedHash)
    (statsMap : Path → Option (Nat × Int)) :
    ∀ (l : List Path) (cr : List (Path × ImageHashResult)) (ms : List Path),
      (∀ q v, (q, v) ∈ cr →
          ∃ e, freshEntry cached statsMap q = some e ∧ v = to_result e) →
      ∀ q v, ((q, v) ∈ (l.foldl (cacheStep cached statsMap) (cr, ms)).1 ↔
        ((q, v) ∈ cr ∨
          (q ∈ l ∧ ∃ e, freshEntry cached statsMap q = some e ∧ v = to_result e))) := by
  intro l
  induction l with
  | nil => intro cr ms _ q v; simp
  | cons p l ih =>
    intro cr ms hinv q v
    rw [List.foldl_cons, cacheStep_eq]
    cases hf : freshEntry cached statsMap p with
    | none =>
      rw [ih cr (ms ++ [p]) hinv q v]
      constructor
      · rintro (hm | ⟨hql, he⟩)
        · exact Or.inl hm
        · exact Or.inr ⟨List.mem_cons_of_mem _ hql, he⟩
      · rintro (hm | ⟨hq, he⟩)
        · exact Or.inl hm
        · rcases List.mem_cons.mp hq with h | h
          · subst h
            obtain ⟨e, he1, _⟩ := he
            rw [hf] at he1
            cases he1
          · exact Or.inr ⟨h, he⟩
    | some e =>
      have hinv2 : ∀ q v, (q, v) ∈ dictInsert cr p (to_result e) →
          ∃ e0, freshEntry cached statsMap q = some e0 ∧ v = to_result e0 := by
        intro q0 v0 hm
        by_cases hqp : q0 = p
        · subst hqp
          exact ⟨e, hf, (dictInsert_mem_same cr q0 (to_result e) v0).mp hm⟩
        · exact hinv q0 v0 ((dictInsert_mem_ne cr hqp (to_result e) v0).mp hm)
      rw [ih (dictInsert cr p (to_result e)) ms hinv2 q v]
      by_cases hqp : q = p
      · subst hqp
        constructor
        · rintro (hm | ⟨hql, he⟩)
          · exact Or.inr ⟨List.mem_cons_self _ _,
              ⟨e, hf, (dictInsert_mem_same cr q (to_result e) v).mp hm⟩⟩
          · exact Or.inr ⟨List.mem_cons_of_mem _ hql, he⟩
        · rintro (hm | ⟨hq, he⟩)
          · obtain ⟨e0, he0, hv0⟩ := hinv q v hm
            rw [hf] at he0
            cases he0
            exact Or.inl ((dictInsert_mem_same cr q (to_result e) v).mpr hv0)
          · obtain ⟨e0, he0, hv0⟩ := he
            rw [hf] at he0
            cases he0
            exact Or.inl ((dictInsert_mem_same cr q (to_result e) v).mpr hv0)
      · have hmem := dictInsert_mem_ne cr hqp (to_result e) v
        constructor
        · rintro (hm | ⟨hql, he⟩)
          · exact Or.inl (hmem.mp hm)
          · exact Or.inr ⟨List.mem_cons_of_mem _ hql, he⟩
        · rintro (hm | ⟨hq, he⟩)
          · exact Or.inl (hmem.mpr hm)
          · rcases List.mem_cons.mp hq with h | h
            · exact absurd h hqp
            · exact Or.inr ⟨h, he⟩

lemma rowKey_upd (q r : CachedHash) :
    rowKey { q with
             mtime := r.mtime,
             size := r.size,
             hash_bits := r.hash_bits,
             width := r.width,
             height := r.height } = rowKey q := rfl

lemma find?_map_upd (r : CachedHash) :
    ∀ db : HashDB, (∃ q ∈ db, rowKey q = rowKey r) →
      List.find? (fun q => decide (rowKey q = rowKey r))
        (db.map (fun q =>
          if rowKey q = rowKey r then
            { q with mtime := r.mtime, size := r.size, hash_bits := r.hash_bits,
                     width := r.width, height := r.height }
          else q)) = some r := by
  intro db
  induction db with
  | nil => rintro ⟨q, hq, _⟩; cases hq
  | cons q db ih =>
    rintro ⟨x, hx, hkey⟩
    rw [List.map_cons]
    by_cases hq : rowKey q = rowKey r
    · have hupd : (if rowKey q = rowKey r then
          { q with mtime := r.mtime, size := r.size, hash_bits := r.hash_bits,
                   width := r.width, height := r.height } else q)
          = { q with mtime := r.mtime, size := r.size, hash_bits := r.hash_bits,
                     width := r.width, height := r.height } := if_pos hq
      rw [hupd, List.find?_cons_of_pos _ (by simpa using hq)]
      have hq2 : q.path = r.path ∧ q.algorithm = r.algorithm
          ∧ q.hash_size = r.hash_size := by
        simpa [rowKey, Prod.ext_iff] using hq
      cases q; cases r
      simp_all
    · rw [if_neg hq, List.find?_cons_of_neg _ (by simpa using hq)]
      rcases List.mem_cons.mp hx with h | h
      · exact absurd (h ▸ hkey) hq
      · exact ih ⟨x, h, hkey⟩

lemma findRow_upsertRow_self (db : HashDB) (r : CachedHash) :
    findRow (upsertRow db r) r.path r.algorithm r.hash_size = some r := by
  unfold findRow upsertRow
  have hkey : ∀ q : CachedHash,
      (decide (rowKey q = (r.path, r.algorithm, r.hash_size)))
        = decide (rowKey q = rowKey r) := fun q => rfl
  by_cases hany : db.any (fun q => decide (rowKey q = rowKey r)) = true
  · rw [if_pos hany]
    obtain ⟨q, hq, hk⟩ := List.any_eq_true.mp hany
    rw [decide_eq_true_eq] at hk
    exact find?_map_upd r db ⟨q, hq, hk⟩
  · rw [if_neg hany]
    have hnone : ∀ q ∈ db, rowKey q ≠ rowKey r := by
      intro q hq hk
      exact hany (List.any_eq_true.mpr ⟨q, hq, by simpa using hk⟩)
    induction db with
    | nil => simp [rowKey]
    | cons q db ih =>
      rw [List.cons_append,
        List.find?_cons_of_neg _ (by simpa using hnone q (List.mem_cons_self q db))]
      exact ih (fun h => hany (by simp_all [List.any_cons]))
        (fun x hx => hnone x (List.mem_cons_of_mem _ hx))

lemma findRow_upsertRow_of_ne (db : HashDB) (r : CachedHash) (p : Path)
    (a : HashAlgorithm) (hs : Nat) (hne : (p, a, hs) ≠ rowKey r) :
    findRow (upsertRow db r) p a hs = findRow db p a hs := by
  unfold findRow upsertRow
  by_cases hany : db.any (fun q => decide (rowKey q = rowKey r)) = true
  · rw [if_pos hany]
    clear hany
    induction db with
    | nil => rfl
    | cons q db ih =>
      rw [List.map_cons]
      by_cases hq : rowKey q = rowKey r
      · rw [if_pos hq]
        have h2 : ¬ rowKey q = (p, a, hs) := fun h =>
          hne (h.symm.trans hq)
        rw [List.find?_cons_of_neg _ (by simpa [rowKey_upd] using h2),
          List.find?_cons_of_neg _ (by simpa using h2), ih]
      · rw [if_neg hq]
        by_cases hqp : rowKey q = (p, a, hs)
        · rw [List.find?_cons_of_pos _ (by simpa using hqp),
            List.find?_cons_of_pos _ (by simpa using hqp)]
        · rw [List.find?_cons_of_neg _ (by simpa using hqp),
            List.find?_cons_of_neg _ (by simpa using hqp), ih]
  · rw [if_neg hany]
    induction db with
    | nil =>
      rw [List.nil_append, List.find?_cons_of_neg _ (by simpa using fun h => hne h.symm),
        List.find?_nil]
    | cons q db ih =>
      rw [List.cons_append]
      by_cases hqp : rowKey q = (p, a, hs)
      · rw [List.find?_cons_of_pos _ (by simpa using hqp),
          List.find?_cons_of_pos _ (by simpa using hqp)]
      · rw [List.find?_cons_of_neg _ (by simpa using hqp),
          List.find?_cons_of_neg _ (by simpa using hqp)]
        exact ih (fun h => hany (by simp_all [List.any_cons]))

/-- Claim C1: stage 5 substitutes a cache entry for recomputation iff the
stored size AND mtime both equal the file's current stat values; any
difference (or an absent stat tuple) sends the path to `missing`, whose
recomputed hash is then upserted, overwriting the stored row. -/
theorem cache_entry_used_iff (cached : Path → Option CachedHash)
    (statsMap : Path → Option (Nat × Int)) (candidates : List Path)
    (p : Path) (hp : p ∈ candidates) :
    (∀ r, ((p, r) ∈ (cacheLoop cached statsMap candidates).1 ↔
        ∃ e, cached p = some e ∧ statsMap p = some (e.size, e.mtime) ∧
          r = to_result e))
    ∧ (p ∈ (cacheLoop cached statsMap candidates).2 ↔
        ¬ ∃ e, cached p = some e ∧ statsMap p = some (e.size, e.mtime))
    ∧ (∀ (db : HashDB) (hs : Nat) (resolve : Path → Path)
          (h : ImageHashResult),
        findRow (upsert_many db [h] hs resolve) (resolve h.path) h.algorithm hs
          = some (rowOf resolve h hs)) := by
  refine ⟨?_, ?_, ?_⟩
  · intro r
    rw [show (cacheLoop cached statsMap candidates).1
        = (candidates.foldl (cacheStep cached statsMap) ([], [])).1 from rfl,
      cacheLoop_mem_aux cached statsMap candidates [] [] (by simp) p r]
    constructor
    · rintro (hm | ⟨_, e, he, hr⟩)
      · cases hm
      · obtain ⟨h1, h2⟩ := freshEntry_some_iff.mp he
        exact ⟨e, h1, h2, hr⟩
    · rintro ⟨e, h1, h2, hr⟩
      exact Or.inr ⟨hp, e, freshEntry_some_iff.mpr ⟨h1, h2⟩, hr⟩
  · rw [show (cacheLoop cached statsMap candidates).2
        = (candidates.foldl (cacheStep cached statsMap) ([], [])).2 from rfl,
      cacheLoop_missing_aux cached statsMap candidates [] []]
    rw [List.nil_append, List.mem_filter]
    constructor
    · rintro ⟨_, hf⟩
      exact freshEntry_none_iff.mp (Option.isNone_iff_eq_none.mp (by simpa using hf))
    · intro hne
      exact ⟨hp, by simp [freshEntry_none_iff.mpr hne]⟩
  · intro db hs resolve h
    show findRow (upsertRow db (rowOf resolve h hs)) (resolve h.path) h.algorithm hs
        = some (rowOf resolve h hs)
    exact findRow_upsertRow_self db (rowOf resolve h hs)

/-- Concrete cache entry and oracles for the C1 witness. -/
def wEntry : CachedHash :=
  { path := "/photos/library/dup.png", mtime := 7, size := 10,
    algorithm := .average, hash_size := 2, hash_bits := [true, false, true, true],
    width := none, height := none }

theorem cache_entry_used_iff_witness :
    "/photos/library/dup.png" ∈ ["/photos/library/dup.png"] ∧
      (("/photos/library/dup.png", to_result wEntry) ∈
        (cacheLoop (fun p => if p = "/photos/library/dup.png" then some wEntry else none)
          (fun p => if p = "/photos/library/dup.png" then some (10, 7) else none)
          ["/photos/library/dup.png"]).1 ↔
        ∃ e, (fun p => if p = "/photos/library/dup.png" then some wEntry else none)
            "/photos/library/dup.png" = some e ∧
          (fun p => if p = "/photos/library/dup.png" then some (10, 7) else none)
            "/photos/library/dup.png" = some (e.size, e.mtime) ∧
          to_result wEntry = to_result e) :=
  ⟨by decide,
    (cache_entry_used_iff
      (fun p => if p = "/photos/library/dup.png" then some wEntry else none)
      (fun p => if p = "/photos/library/dup.png" then some (10, 7) else none)
      ["/photos/library/dup.png"] "/photos/library/dup.png" (by decide)).1
      (to_result wEntry)⟩

lemma rankLoop_mem (ref_hash : ImageHashResult) (T : ℚ)
    (results : List (Option ImageHashResult)) (m : MatchResult) :
    m ∈ (rankLoop ref_hash T results).1 ↔
      ∃ res, some res ∈ results ∧ T ≤ ref_hash.similarity_pct res ∧
        m = mkMatch ref_hash res := by
  induction results with
  | nil => simp [rankLoop]
  | cons r rest ih =>
    cases r with
    | none =>
      rw [show (rankLoop ref_hash T (none :: rest)).1
          = (rankLoop ref_hash T rest).1 from rfl, ih]
      constructor
      · rintro ⟨res, hmem, hT, hm⟩
        exact ⟨res, List.mem_cons_of_mem _ hmem, hT, hm⟩
      · rintro ⟨res, hmem, hT, hm⟩
        rcases List.mem_cons.mp hmem with h | h
        · cases h
        · exact ⟨res, h, hT, hm⟩
    | some res0 =>
      by_cases hT0 : T ≤ ref_hash.similarity_pct res0
      · rw [show (rankLoop ref_hash T (some res0 :: rest)).1
            = if T ≤ ref_hash.similarity_pct res0 then
                mkMatch ref_hash res0 :: (rankLoop ref_hash T rest).1
              else (rankLoop ref_hash T rest).1 from by
            simp only [rankLoop]
            split <;> rfl,
          if_pos hT0, List.mem_cons, ih]
        constructor
        · rintro (hm | ⟨res, hmem, hT, hm⟩)
          · exact ⟨res0, List.mem_cons_self _ _, hT0, hm⟩
          · exact ⟨res, List.mem_cons_of_mem _ hmem, hT, hm⟩
        · rintro ⟨res, hmem, hT, hm⟩
          rcases List.mem_cons.mp hmem with h | h
          · cases h
            exact Or.inl hm
          · exact Or.inr ⟨res, h, hT, hm⟩
      · rw [show (rankLoop ref_hash T (some res0 :: rest)).1
            = if T ≤ ref_hash.similarity_pct res0 then
                mkMatch ref_hash res0 :: (rankLoop ref_hash T rest).1
              else (rankLoop ref_hash T rest).1 from by
            simp only [rankLoop]
            split <;> rfl,
          if_neg hT0, ih]
        constructor
        · rintro ⟨res, hmem, hT, hm⟩
          exact ⟨res, List.mem_cons_of_mem _ hmem, hT, hm⟩
        · rintro ⟨res, hmem, hT, hm⟩
          rcases List.mem_cons.mp hmem with h | h
          · cases h
            exact absurd hT hT0
          · exact ⟨res, h, hT, hm⟩

lemma insertDesc_perm (x : MatchResult) (l : List MatchResult) :
    (insertDesc x l).Perm (x :: l) := by
  induction l with
  | nil => exact List.Perm.refl _
  | cons y ys ih =>
    unfold insertDesc
    by_cases h : y.similarity_pct ≤ x.similarity_pct
    · rw [if_pos h]
    · rw [if_neg h]
      exact (ih.cons y).trans (List.Perm.swap x y ys)

lemma sortDesc_perm (l : List MatchResult) : (sortDesc l).Perm l := by
  induction l with
  | nil => exact List.Perm.refl _
  | cons x xs ih =>
    exact (insertDesc_perm x (sortDesc xs)).trans (ih.cons x)

lemma insertDesc_sorted (x : MatchResult) (l : List MatchResult)
    (hl : l.Pairwise (fun a b => b.similarity_pct ≤ a.similarity_pct)) :
    (insertDesc x l).Pairwise (fun a b => b.similarity_pct ≤ a.similarity_pct) := by
  induction l with
  | nil => simp [insertDesc]
  | cons y ys ih =>
    unfold insertDesc
    by_cases h : y.similarity_pct ≤ x.similarity_pct
    · rw [if_pos h]
      refine List.Pairwise.cons ?_ hl
      intro b hb
      rcases List.mem_cons.mp hb with hby | hbys
      · exact hby ▸ h
      · exact le_trans (List.rel_of_pairwise_cons hl hbys) h
    · rw [if_neg h]
      have hys := List.Pairwise.of_cons hl
      refine List.Pairwise.cons ?_ (ih hys)
      intro b hb
      have hb2 := (insertDesc_perm x ys).mem_iff.mp hb
      rcases List.mem_cons.mp hb2 with hbx | hbys
      · exact hbx ▸ le_of_not_le h
      · exact List.rel_of_pairwise_cons hl hbys

lemma sortDesc_sorted (l : List MatchResult) :
    (sortDesc l).Pairwise (fun a b => b.similarity_pct ≤ a.similarity_pct) := by
  induction l with
  | nil => simp [sortDesc]
  | cons x xs ih => exact insertDesc_sorted x (sortDesc xs) ih

lemma insertDesc_filter_sim (x : MatchResult) (l : List MatchResult) (s : ℚ) :
    (insertDesc x l).filter (fun m => decide (m.similarity_pct = s))
      = if x.similarity_pct = s then
          x :: l.filter (fun m => decide (m.similarity_pct = s))
        else l.filter (fun m => decide (m.similarity_pct = s)) := by
  induction l with
  | nil =>
    by_cases hx : x.similarity_pct = s
    · rw [if_pos hx]
      simp [insertDesc, hx]
    · rw [if_neg hx]
      simp [insertDesc, hx]
  | cons y ys ih =>
    unfold insertDesc
    by_cases h : y.similarity_pct ≤ x.similarity_pct
    · rw [if_pos h]
      by_cases hx : x.similarity_pct = s
      · rw [if_pos hx, List.filter_cons_of_pos (by simpa using hx)]
      · rw [if_neg hx, List.filter_cons_of_neg (by simpa using hx)]
    · rw [if_neg h]
      have hy : ¬ y.similarity_pct = s ∨ ¬ x.similarity_pct = s ∨ False := by
        by_cases hx : x.similarity_pct = s
        · left
          intro hys
          exact h (le_of_eq (hys.trans hx.symm))
        · right; left; exact hx
      by_cases hys : y.similarity_pct = s
      · rw [List.filter_cons_of_pos (by simpa using hys), ih]
        have hx : ¬ x.similarity_pct = s := by
          rcases hy with h1 | h1 | h1
          · exact absurd hys h1
          · exact h1
          · exact absurd h1 not_false
        rw [if_neg hx, if_neg hx, List.filter_cons_of_pos (by simpa using hys)]
      · rw [List.filter_cons_of_neg (by simpa using hys), ih]
        by_cases hx : x.similarity_pct = s
        · rw [if_pos hx, if_pos hx, List.filter_cons_of_neg (by simpa using hys)]
        · rw [if_neg hx, if_neg hx, List.filter_cons_of_neg (by simpa using hys)]

lemma sortDesc_filter_sim (l : List MatchResult) (s : ℚ) :
    (sortDesc l).filter (fun m => decide (m.similarity_pct = s))
      = l.filter (fun m => decide (m.similarity_pct = s)) := by
  induction l with
  | nil => rfl
  | cons x xs ih =>
    show (insertDesc x (sortDesc xs)).filter _ = _
    rw [insertDesc_filter_sim]
    by_cases hx : x.similarity_pct = s
    · rw [if_pos hx, ih, List.filter_cons_of_pos (by simpa using hx)]
    · rw [if_neg hx, ih, List.filter_cons_of_neg (by simpa using hx)]

/-- Claim C7: the returned match set is exactly the successfully hashed
candidates with similarity ≥ T (inclusive), and raising the threshold
shrinks (or preserves) the match set. -/
theorem threshold_filter_matches (ref_hash : ImageHashResult)
    (results : List (Option ImageHashResult)) (T U : ℚ) (hTU : T ≤ U) :
    (∀ m, m ∈ (rankStage ref_hash T results).1 ↔
        ∃ res, some res ∈ results ∧ T ≤ ref_hash.similarity_pct res ∧
          m = mkMatch ref_hash res)
    ∧ ∀ m ∈ (rankStage ref_hash U results).1,
        m ∈ (rankStage ref_hash T results).1 := by
  have hmem : ∀ (V : ℚ) m, m ∈ (rankStage ref_hash V results).1 ↔
      ∃ res, some res ∈ results ∧ V ≤ ref_hash.similarity_pct res ∧
        m = mkMatch ref_hash res := by
    intro V m
    rw [show (rankStage ref_hash V results).1
        = sortDesc (rankLoop ref_hash V results).1 from rfl,
      (sortDesc_perm _).mem_iff]
    exact rankLoop_mem ref_hash V results m
  refine ⟨hmem T, ?_⟩
  intro m hm
  obtain ⟨res, hmemr, hU, hmk⟩ := (hmem U m).mp hm
  exact (hmem T m).mpr ⟨res, hmemr, le_trans hTU hU, hmk⟩

theorem threshold_filter_matches_witness :
    (80 : ℚ) ≤ 90 ∧
      ∀ m ∈ (rankStage wRef 90 [some wDup]).1,
        m ∈ (rankStage wRef 80 [some wDup]).1 :=
  ⟨by decide, (threshold_filter_matches wRef [some wDup] 80 90 (by decide)).2⟩

/-- Claim C4 (amended): the returned match list is sorted descending by
similarity percentage and is a permutation of the threshold-filtered
matches; ties keep the order in which fingerprints were accumulated
(Python's sort is stable), which follows worker completion order — they
are NOT re-ordered by candidate path. -/
theorem matches_sorted_stable (ref_hash : ImageHashResult) (threshold : ℚ)
    (results : List (Option ImageHashResult)) :
    ((rankStage ref_hash threshold results).1.Pairwise
        (fun a b => b.similarity_pct ≤ a.similarity_pct))
    ∧ (rankStage ref_hash threshold results).1.Perm
        (rankLoop ref_hash threshold results).1
    ∧ ∀ s : ℚ, (rankStage ref_hash threshold results).1.filter
          (fun m => decide (m.similarity_pct = s))
        = (rankLoop ref_hash threshold results).1.filter
          (fun m => decide (m.similarity_pct = s)) :=
  ⟨sortDesc_sorted _, sortDesc_perm _, fun s => sortDesc_filter_sim _ s⟩

/-- Concrete fingerprints exercising the tie-breaking behaviour: both
candidates are bit-identical to the reference, so both tie at 100%. -/
def c4ref : ImageHashResult :=
  { path := "/pics/ref.png", bits := [true, false, true, false],
    algorithm := .average, file_size := 100, file_mtime := 50 }

def c4A : ImageHashResult :=
  { path := "/pics/a.png", bits := [true, false, true, false],
    algorithm := .average, file_size := 100, file_mtime := 60 }

def c4B : ImageHashResult :=
  { path := "/pics/b.png", bits := [true, false, true, false],
    algorithm := .average, file_size := 100, file_mtime := 61 }

lemma c4simA : c4ref.similarity_pct c4A = 100 := by
  have hd : c4ref.distance c4A = 0 := by decide
  show max 0 ((1 - (c4ref.distance c4A : ℚ) / (c4ref.bits.length : ℚ)) * 100)
      = 100
  rw [hd]
  norm_num [c4ref]

lemma c4simB : c4ref.similarity_pct c4B = 100 := by
  have hd : c4ref.distance c4B = 0 := by decide
  show max 0 ((1 - (c4ref.distance c4B : ℚ) / (c4ref.bits.length : ℚ)) * 100)
      = 100
  rw [hd]
  norm_num [c4ref]

/-- Claim C4 counterexample: two runs over the same input multiset of
fingerprints (the two possible completion orders of an unordered pool)
produce different match orders, and in the first the tied candidates are
NOT ordered by candidate path (`/pics/b.png` precedes `/pics/a.png`
although `a < b`): `matches.sort(key=..., reverse=True)` is stable on the
accumulation order and never consults the candidate path. -/
theorem tie_order_counterexample :
    ([some c4B, some c4A] : List (Option ImageHashResult)).Perm
        [some c4A, some c4B]
    ∧ c4ref.similarity_pct c4A = c4ref.similarity_pct c4B
    ∧ c4A.path ≠ c4B.path
    ∧ (rankStage c4ref 90 [some c4B, some c4A]).1
        = [mkMatch c4ref c4B, mkMatch c4ref c4A]
    ∧ (rankStage c4ref 90 [some c4A, some c4B]).1
        = [mkMatch c4ref c4A, mkMatch c4ref c4B]
    ∧ mkMatch c4ref c4A ≠ mkMatch c4ref c4B := by
  have h90A : (90 : ℚ) ≤ c4ref.similarity_pct c4A := by
    rw [c4simA]; decide
  have h90B : (90 : ℚ) ≤ c4ref.similarity_pct c4B := by
    rw [c4simB]; decide
  refine ⟨List.Perm.swap _ _ _, c4simA.trans c4simB.symm, by decide, ?_, ?_, ?_⟩
  · simp [rankStage, rankLoop, sortDesc, insertDesc, h90A, h90B, mkMatch,
      c4simA, c4simB]
  · simp [rankStage, rankLoop, sortDesc, insertDesc, h90A, h90B, mkMatch,
      c4simA, c4simB]
  · intro h
    have hc := congrArg MatchResult.candidate h
    simp [mkMatch, c4A, c4B] at hc

/-- The chunks the pool loop fully processes and flushes before a budget
of `b` worker results is exhausted. -/
def completedChunks : Nat → List (List Path) → List (List Path)
  | _, [] => []
  | b, c :: cs => if c.length ≤ b then c :: completedChunks (b - c.length) cs else []

/-- One batch flush: `if cache and chunk_results:
cache.upsert_many(chunk_results, hash_size=config.hash_size)`. -/
def flushChunk (worker : Path → Option ImageHashResult) (hs : Nat)
    (resolve : Path → Path) (useCache : Bool) (db : HashDB)
    (c : List Path) : HashDB :=
  let flushed := (c.map worker).filterMap id
  if useCache ∧ flushed ≠ [] then upsert_many db flushed hs resolve else db

lemma runChunks_none (worker : Path → Option ImageHashResult) (hs : Nat)
    (resolve : Path → Path) (useCache : Bool) :
    ∀ (chunks : List (List Path)) (db : HashDB),
      runChunks worker hs resolve useCache chunks db none
        = (chunks.flatten.map worker,
           chunks.foldl (flushChunk worker hs resolve useCache) db, false) := by
  intro chunks
  induction chunks with
  | nil => intro db; rfl
  | cons c cs ih =>
    intro db
    show (c.map worker ++ (runChunks worker hs resolve useCache cs
            (flushChunk worker hs resolve useCache db c) none).1,
          (runChunks worker hs resolve useCache cs
            (flushChunk worker hs resolve useCache db c) none).2.1,
          (runChunks worker hs resolve useCache cs
            (flushChunk worker hs resolve useCache db c) none).2.2) = _
    rw [ih, List.flatten_cons, List.map_append, List.foldl_cons]

lemma runChunks_budget (worker : Path → Option ImageHashResult) (hs : Nat)
    (resolve : Path → Path) (useCache : Bool) :
    ∀ (chunks : List (List Path)) (db : HashDB) (b : Nat),
      runChunks worker hs resolve useCache chunks db (some b)
        = ((chunks.flatten.take b).map worker,
           (completedChunks b chunks).foldl
             (flushChunk worker hs resolve useCache) db,
           decide (b < chunks.flatten.length)) := by
  intro chunks
  induction chunks with
  | nil => intro db b; simp [runChunks, completedChunks]
  | cons c cs ih =>
    intro db b
    have hcc : completedChunks b (c :: cs)
        = if c.length ≤ b then c :: completedChunks (b - c.length) cs
          else [] := rfl
    by_cases hb : c.length ≤ b
    · show (if c.length ≤ b then
            (c.map worker ++ (runChunks worker hs resolve useCache cs
              (flushChunk worker hs resolve useCache db c) (some (b - c.length))).1,
             (runChunks worker hs resolve useCache cs
              (flushChunk worker hs resolve useCache db c) (some (b - c.length))).2.1,
             (runChunks worker hs resolve useCache cs
              (flushChunk worker hs resolve useCache db c) (some (b - c.length))).2.2)
          else ((c.take b).map worker, db, true)) = _
      rw [if_pos hb, ih, hcc, if_pos hb, List.foldl_cons]
      refine Prod.ext ?_ (Prod.ext rfl ?_)
      · show c.map worker ++ (cs.flatten.take (b - c.length)).map worker
            = ((c :: cs).flatten.take b).map worker
        rw [List.flatten_cons, List.take_append_eq_append_take,
          List.take_of_length_le hb, List.map_append]
      · show decide (b - c.length < cs.flatten.length)
            = decide (b < (c :: cs).flatten.length)
        rw [List.flatten_cons, List.length_append, decide_eq_decide]
        omega
    · show (if c.length ≤ b then
            (c.map worker ++ (runChunks worker hs resolve useCache cs
              (flushChunk worker hs resolve useCache db c) (some (b - c.length))).1,
             (runChunks worker hs resolve useCache cs
              (flushChunk worker hs resolve useCache db c) (some (b - c.length))).2.1,
             (runChunks worker hs resolve useCache cs
              (flushChunk worker hs resolve useCache db c) (some (b - c.length))).2.2)
          else ((c.take b).map worker, db, true)) = _
      rw [if_neg hb, hcc, if_neg hb, List.foldl_nil]
      refine Prod.ext ?_ (Prod.ext rfl ?_)
      · show (c.take b).map worker = ((c :: cs).flatten.take b).map worker
        rw [List.flatten_cons, List.take_append_eq_append_take,
          show b - c.length = 0 from by omega, List.take_zero,
          List.append_nil]
      · show true = decide (b < (c :: cs).flatten.length)
        rw [List.flatten_cons, List.length_append]
        have hlt : b < c.length + cs.flatten.length := by omega
        exact (decide_eq_true hlt).symm

lemma rankLoop_counts (ref_hash : ImageHashResult) (T : ℚ) :
    ∀ results : List (Option ImageHashResult),
      (rankLoop ref_hash T results).2.1
          = (results.filter (fun r => r.isSome)).length
      ∧ (rankLoop ref_hash T results).2.2
          = (results.filter (fun r => r.isNone)).length := by
  intro results
  induction results with
  | nil => exact ⟨rfl, rfl⟩
  | cons r rest ih =>
    cases r with
    | none =>
      refine ⟨?_, ?_⟩
      · show (rankLoop ref_hash T rest).2.1 = _
        rw [ih.1, List.filter_cons_of_neg (by simp)]
      · show (rankLoop ref_hash T rest).2.2 + 1 = _
        rw [ih.2, List.filter_cons_of_pos (by simp), List.length_cons]
    | some res =>
      by_cases hT : T ≤ ref_hash.similarity_pct res
      · refine ⟨?_, ?_⟩
        · show (rankLoop ref_hash T (some res :: rest)).2.1 = _
          rw [show (rankLoop ref_hash T (some res :: rest)).2.1
              = (rankLoop ref_hash T rest).2.1 + 1 from by
                simp only [rankLoop]
                rw [if_pos hT],
            ih.1, List.filter_cons_of_pos (by simp), List.length_cons]
        · show (rankLoop ref_hash T (some res :: rest)).2.2 = _
          rw [show (rankLoop ref_hash T (some res :: rest)).2.2
              = (rankLoop ref_hash T rest).2.2 from by
                simp only [rankLoop]
                rw [if_pos hT],
            ih.2, List.filter_cons_of_neg (by simp)]
      · refine ⟨?_, ?_⟩
        · show (rankLoop ref_hash T (some res :: rest)).2.1 = _
          rw [show (rankLoop ref_hash T (some res :: rest)).2.1
              = (rankLoop ref_hash T rest).2.1 + 1 from by
                simp only [rankLoop]
                rw [if_neg hT],
            ih.1, List.filter_cons_of_pos (by simp), List.length_cons]
        · show (rankLoop ref_hash T (some res :: rest)).2.2 = _
          rw [show (rankLoop ref_hash T (some res :: rest)).2.2
              = (rankLoop ref_hash T rest).2.2 from by
                simp only [rankLoop]
                rw [if_neg hT],
            ih.2, List.filter_cons_of_neg (by simp)]

/-- The value `search` returns on its main path (validation passed,
non-empty candidate list, stat collection succeeded). -/
def mainOutcome (cfg : SearchConfig) (env : FsEnv) (db : HashDB) (ref : Path)
    (budget : Option Nat) (rh : ImageHashResult) (sl : List (Path × Nat × Int))
    (refSize : Nat) : List MatchResult × SearchStats × HashDB :=
  let statsMap := statsMapOf sl
  let cands2 := sizeFilterStage cfg refSize statsMap (candidatesStage env ref)
  let split := cacheStage cfg env.resolve db statsMap cands2
  let chunks := chunksOf cfg.batch_size split.2
  let run := runChunks (workerOf cfg env statsMap) cfg.hash_size env.resolve
    cfg.use_cache chunks db budget
  let results := run.1 ++ split.1.map (fun q => some q.2)
  let ranked := rankStage rh cfg.threshold results
  (ranked.1,
   { total_files := cands2.length, images_scanned := ranked.2.1,
     images_failed := ranked.2.2, matches_found := ranked.1.length },
   run.2.1)

lemma search_eq_mainOutcome (cfg : SearchConfig) (env : FsEnv) (db : HashDB)
    (ref : Path) (budget : Option Nat)
    (href : env.refExists = true) (hdir : env.dirIsDir = true)
    (rh : ImageHashResult) (hrh : refHashOf cfg env ref = some rh)
    (hemp : (candidatesStage env ref).isEmpty = false)
    (sl : List (Path × Nat × Int))
    (hsl : statCollect env.statO (candidatesStage env ref) = Except.ok sl)
    (sm : Nat × Int) (hsm : env.statO (env.resolve ref) = some sm) :
    search cfg env db ref budget
      = Except.ok (mainOutcome cfg env db ref budget rh sl sm.1) := by
  unfold search mainOutcome
  rw [href, hdir, hrh]
  simp only [Bool.not_true, Bool.false_eq_true, if_false, hemp, hsl, hsm]

/-- Claim C2: whatever point the hashing stage is interrupted at (budget
`b` = number of worker results delivered before the signal), `search`
returns `ok` with the fingerprints completed so far merged with the
cached ones, statistics that exactly count those results, and a cache
state equal to flushing exactly the fully completed batches. -/
theorem search_interrupt_returns_partial
    (cfg : SearchConfig) (env : FsEnv) (db : HashDB) (ref : Path) (b : Nat)
    (hbs : 0 < cfg.batch_size)
    (href : env.refExists = true) (hdir : env.dirIsDir = true)
    (rh : ImageHashResult) (hrh : refHashOf cfg env ref = some rh)
    (sl : List (Path × Nat × Int))
    (hsl : statCollect env.statO (candidatesStage env ref) = Except.ok sl) :
    ∃ ms st db2,
      search cfg env db ref (some b) = Except.ok (ms, st, db2)
      ∧ (let statsMap := statsMapOf sl
         let cands2 := sizeFilterStage cfg
           ((env.statO (env.resolve ref)).getD (0, 0)).1 statsMap
           (candidatesStage env ref)
         let split := cacheStage cfg env.resolve db statsMap cands2
         let worker := workerOf cfg env statsMap
         let resultsAll := (split.2.take b).map worker
           ++ split.1.map (fun q => some q.2)
         ms = (rankStage rh cfg.threshold resultsAll).1
         ∧ st.total_files = cands2.length
         ∧ st.images_scanned = (resultsAll.filter (fun r => r.isSome)).length
         ∧ st.images_failed = (resultsAll.filter (fun r => r.isNone)).length
         ∧ st.matches_found = ms.length
         ∧ db2 = (completedChunks b (chunksOf cfg.batch_size split.2)).foldl
             (flushChunk worker cfg.hash_size env.resolve cfg.use_cache) db) := by
  obtain ⟨bits, hbits, sm, hsm⟩ :
      ∃ bits, env.hashO (env.resolve ref) = some bits ∧
        ∃ sm, env.statO (env.resolve ref) = some sm := by
    simp only [refHashOf] at hrh
    cases hh : env.hashO (env.resolve ref) with
    | none =>
      cases hst : env.statO (env.resolve ref) with
      | none => simp [hh, hst] at hrh
      | some sm => simp [hh, hst] at hrh
    | some bits =>
      cases hst : env.statO (env.resolve ref) with
      | none => simp [hh, hst] at hrh
      | some sm => exact ⟨bits, rfl, sm, rfl⟩
  by_cases hemp : (candidatesStage env ref).isEmpty = true
  · have hcand : candidatesStage env ref = [] := by
      simpa [List.isEmpty_iff] using hemp
    refine ⟨[], ⟨0, 0, 0, 0⟩, db, ?_, ?_⟩
    · unfold search
      rw [href, hdir, hrh]
      simp [hemp]
    · simp only [hcand]
      cases htol : cfg.size_tolerance_pct with
      | none =>
        simp [sizeFilterStage, cacheStage, htol, rankStage, rankLoop, sortDesc,
          chunksOf, chunksOfAux, completedChunks]
      | some t =>
        simp [sizeFilterStage, cacheStage, htol, rankStage, rankLoop, sortDesc,
          chunksOf, chunksOfAux, completedChunks]
  · have hemp2 : (candidatesStage env ref).isEmpty = false :=
      Bool.not_eq_true _ ▸ (by simpa using hemp)
    have hmain := search_eq_mainOutcome cfg env db ref (some b) href hdir rh hrh
      hemp2 sl hsl sm hsm
    have hsm1 : ((env.statO (env.resolve ref)).getD (0, 0)).1 = sm.1 := by
      rw [hsm]
      rfl
    rw [← hsm1] at hmain
    refine ⟨(mainOutcome cfg env db ref (some b) rh sl
        ((env.statO (env.resolve ref)).getD (0, 0)).1).1,
      (mainOutcome cfg env db ref (some b) rh sl
        ((env.statO (env.resolve ref)).getD (0, 0)).1).2.1,
      (mainOutcome cfg env db ref (some b) rh sl
        ((env.statO (env.resolve ref)).getD (0, 0)).1).2.2,
      by rw [hmain], ?_⟩
    intro statsMap cands2 split worker resultsAll
    have hrun := runChunks_budget worker cfg.hash_size env.resolve
      cfg.use_cache (chunksOf cfg.batch_size split.2) db b
    have hflat : (chunksOf cfg.batch_size split.2).flatten = split.2 :=
      chunksOf_flatten hbs split.2
    rw [hflat] at hrun
    refine ⟨?_, ?_, ?_, ?_, ?_, ?_⟩
    · show (rankStage rh cfg.threshold
          ((runChunks worker cfg.hash_size env.resolve cfg.use_cache
            (chunksOf cfg.batch_size split.2) db (some b)).1
            ++ split.1.map (fun q => some q.2))).1 = _
      rw [hrun]
    · rfl
    · show (rankLoop rh cfg.threshold
          ((runChunks worker cfg.hash_size env.resolve cfg.use_cache
            (chunksOf cfg.batch_size split.2) db (some b)).1
            ++ split.1.map (fun q => some q.2))).2.1 = _
      rw [hrun]
      exact (rankLoop_counts rh cfg.threshold _).1
    · show (rankLoop rh cfg.threshold
          ((runChunks worker cfg.hash_size env.resolve cfg.use_cache
            (chunksOf cfg.batch_size split.2) db (some b)).1
            ++ split.1.map (fun q => some q.2))).2.2 = _
      rw [hrun]
      exact (rankLoop_counts rh cfg.threshold _).2
    · rfl
    · show (runChunks worker cfg.hash_size env.resolve cfg.use_cache
          (chunksOf cfg.batch_size split.2) db (some b)).2.1 = _
      rw [hrun]

/-- Concrete configuration and environment for the search-level
witnesses: one candidate that fails to decode, so the run exercises a
full pipeline pass without needing rational-number evaluation. -/
def cfgW : SearchConfig :=
  { algorithm := .average, hash_size := 16, threshold := 90,
    use_cache := false, size_tolerance_pct := none, batch_size := 500 }

def envW : FsEnv :=
  { resolve := fun p => p, refExists := true, dirIsDir := true,
    statO := fun _ => some (10, 5),
    hashO := fun p => if p = "/w/ref.png" then some [true, true] else none,
    listing := ["/w/a.png"] }

theorem search_interrupt_returns_partial_witness :
    0 < cfgW.batch_size ∧
      ∃ ms st db2, search cfgW envW [] "/w/ref.png" (some 0)
        = Except.ok (ms, st, db2) := by
  refine ⟨by decide, ?_⟩
  obtain ⟨ms, st, db2, h, -⟩ :=
    search_interrupt_returns_partial cfgW envW [] "/w/ref.png" 0
      (by decide) rfl rfl
      ⟨"/w/ref.png", [true, true], .average, 10, 5⟩ (by decide)
      [("/w/a.png", 10, 5)] rfl
  exact ⟨ms, st, db2, h⟩

lemma candidatesStage_not_ref (env : FsEnv) (ref : Path) :
    env.resolve ref ∉ candidatesStage env ref := by
  intro h
  obtain ⟨p, hp, heq⟩ := List.mem_map.mp h
  have hf := List.of_mem_filter hp
  rw [bne_iff_ne] at hf
  exact hf heq

lemma sizeFilterStage_subset (cfg : SearchConfig) (rs : Nat)
    (smap : Path → Option (Nat × Int)) (cands : List Path) :
    ∀ p ∈ sizeFilterStage cfg rs smap cands, p ∈ cands := by
  intro p hp
  unfold sizeFilterStage at hp
  cases htol : cfg.size_tolerance_pct with
  | none => rw [htol] at hp; exact hp
  | some t =>
    rw [htol] at hp
    exact List.mem_of_mem_filter hp

lemma cacheStage_missing_subset (cfg : SearchConfig) (resolve : Path → Path)
    (db : HashDB) (smap : Path → Option (Nat × Int)) (cands : List Path) :
    ∀ p ∈ (cacheStage cfg resolve db smap cands).2, p ∈ cands := by
  intro p hp
  unfold cacheStage at hp
  by_cases hc : cfg.use_cache = true ∧ cands ≠ []
  · rw [if_pos hc] at hp
    have := cacheLoop_missing_aux
      (get_cached db cands cfg.algorithm cfg.hash_size resolve) smap cands [] []
    rw [show cacheLoop (get_cached db cands cfg.algorithm cfg.hash_size resolve)
        smap cands
        = cands.foldl (cacheStep
            (get_cached db cands cfg.algorithm cfg.hash_size resolve) smap)
            ([], []) from rfl, this, List.nil_append] at hp
    exact List.mem_of_mem_filter hp
  · rw [if_neg hc] at hp
    exact hp

lemma lastMatch_path (p : Path) :
    ∀ rows : List CachedHash, ∀ x, lastMatch p rows = some x → x.path = p := by
  intro rows
  induction rows with
  | nil => intro x hx; cases hx
  | cons r rows ih =>
    intro x hx
    unfold lastMatch at hx
    cases hl : lastMatch p rows with
    | some y =>
      rw [hl] at hx
      cases hx
      exact ih _ hl
    | none =>
      rw [hl] at hx
      by_cases hr : r.path = p
      · rw [if_pos hr] at hx
        cases hx
        exact hr
      · rw [if_neg hr] at hx
        cases hx

lemma get_cached_path (db : HashDB) (paths : List Path) (a : HashAlgorithm)
    (hs : Nat) (resolve : Path → Path) (p : Path) (e : CachedHash)
    (h : get_cached db paths a hs resolve p = some e) : e.path = p := by
  have happ := foldl_insertRows_apply db a hs
    (chunksOf SQLITE_MAX_VARS (paths.map resolve)) (fun _ => none) p
  rw [show get_cached db paths a hs resolve p
      = (chunksOf SQLITE_MAX_VARS (paths.map resolve)).foldl
          (fun acc c => insertRows acc (queryChunk db a hs c))
          (fun _ => none) p from rfl, happ] at h
  by_cases hcond : (∃ c ∈ chunksOf SQLITE_MAX_VARS (paths.map resolve), p ∈ c)
      ∧ (lastMatch p (queryFor db a hs p)).isSome = true
  · rw [if_pos hcond] at h
    exact lastMatch_path p _ e h
  · rw [if_neg hcond] at h
    cases h

lemma cacheStage_dict_path (cfg : SearchConfig) (resolve : Path → Path)
    (db : HashDB) (smap : Path → Option (Nat × Int)) (cands : List Path)
    (q : Path) (v : ImageHashResult)
    (h : (q, v) ∈ (cacheStage cfg resolve db smap cands).1) :
    q ∈ cands ∧ v.path = q := by
  unfold cacheStage at h
  by_cases hc : cfg.use_cache = true ∧ cands ≠ []
  · rw [if_pos hc] at h
    rw [show cacheLoop (get_cached db cands cfg.algorithm cfg.hash_size resolve)
        smap cands
        = cands.foldl (cacheStep
            (get_cached db cands cfg.algorithm cfg.hash_size resolve) smap)
            ([], []) from rfl,
      cacheLoop_mem_aux _ smap cands [] [] (by simp) q v] at h
    rcases h with h | ⟨hq, e, he, hv⟩
    · cases h
    · obtain ⟨hcached, _⟩ := freshEntry_some_iff.mp he
      refine ⟨hq, ?_⟩
      rw [hv]
      show e.path = q
      exact get_cached_path db cands cfg.algorithm cfg.hash_size resolve q e hcached
  · rw [if_neg hc] at h
    cases h

lemma workerOf_path (cfg : SearchConfig) (env : FsEnv)
    (smap : Path → Option (Nat × Int)) (p : Path) (r : ImageHashResult)
    (h : workerOf cfg env smap p = some r) : r.path = p := by
  unfold workerOf at h
  cases hh : env.hashO p with
  | none => rw [hh] at h; cases h
  | some bits =>
    rw [hh] at h
    cases h
    rfl

lemma chunksOfAux_flatten_subset (n : Nat) :
    ∀ (fuel : Nat) (l : List Path), (chunksOfAux n fuel l).flatten ⊆ l := by
  intro fuel
  induction fuel with
  | zero => intro l; simp [chunksOfAux]
  | succ fuel ih =>
    intro l
    cases l with
    | nil => simp [chunksOfAux]
    | cons x xs =>
      show ((x :: xs).take n :: chunksOfAux n fuel ((x :: xs).drop n)).flatten
          ⊆ x :: xs
      rw [List.flatten_cons]
      intro y hy
      rcases List.mem_append.mp hy with h | h
      · exact List.take_subset _ _ h
      · exact List.drop_subset _ _ (ih _ h)

lemma runChunks_results_mem (worker : Path → Option ImageHashResult) (hs : Nat)
    (resolve : Path → Path) (useCache : Bool) (chunks : List (List Path))
    (db : HashDB) (budget : Option Nat) :
    ∀ x ∈ (runChunks worker hs resolve useCache chunks db budget).1,
      ∃ p ∈ chunks.flatten, x = worker p := by
  intro x hx
  cases budget with
  | none =>
    rw [runChunks_none] at hx
    obtain ⟨p, hp, he⟩ := List.mem_map.mp hx
    exact ⟨p, hp, he.symm⟩
  | some b =>
    rw [runChunks_budget] at hx
    obtain ⟨p, hp, he⟩ := List.mem_map.mp hx
    exact ⟨p, List.take_subset _ _ hp, he.symm⟩

/-- Claim C10: whenever `search` returns, the (resolved) reference image
never appears among the candidates — it is excluded by canonical-path
comparison — so no returned match names it, and `stats.total_files`
counts a list of candidate paths that excludes it. -/
theorem reference_excluded (cfg : SearchConfig) (env : FsEnv) (db : HashDB)
    (ref : Path) (budget : Option Nat) (ms : List MatchResult)
    (st : SearchStats) (db2 : HashDB)
    (h : search cfg env db ref budget = Except.ok (ms, st, db2)) :
    (∀ m ∈ ms, m.candidate ≠ env.resolve ref)
    ∧ env.resolve ref ∉ candidatesStage env ref
    ∧ ∃ counted : List Path, st.total_files = counted.length
        ∧ env.resolve ref ∉ counted
        ∧ ∀ p ∈ counted, p ∈ candidatesStage env ref := by
  have hnot := candidatesStage_not_ref env ref
  by_cases href : env.refExists = true
  · by_cases hdir : env.dirIsDir = true
    · cases hrh : refHashOf cfg env ref with
      | none =>
        unfold search at h
        rw [href, hdir, hrh] at h
        simp at h
      | some rh =>
        by_cases hemp : (candidatesStage env ref).isEmpty = true
        · unfold search at h
          rw [href, hdir, hrh] at h
          simp only [Bool.not_true, Bool.false_eq_true, if_false, hemp,
            if_true, Except.ok.injEq, Prod.mk.injEq] at h
          obtain ⟨hms, hst, _⟩ := h
          refine ⟨?_, hnot, [], ?_, by simp, by simp⟩
          · intro m hm
            rw [← hms] at hm
            cases hm
          · rw [← hst]
            rfl
        · have hemp2 : (candidatesStage env ref).isEmpty = false := by
            simpa using hemp
          cases hsl : statCollect env.statO (candidatesStage env ref) with
          | error p =>
            unfold search at h
            rw [href, hdir, hrh] at h
            simp only [Bool.not_true, Bool.false_eq_true, if_false, hemp2,
              hsl] at h
            exact Except.noConfusion h
          | ok sl =>
            cases hsm : env.statO (env.resolve ref) with
            | none =>
              unfold search at h
              rw [href, hdir, hrh] at h
              simp only [Bool.not_true, Bool.false_eq_true, if_false, hemp2,
                hsl, hsm] at h
              exact Except.noConfusion h
            | some sm =>
              have hmain := search_eq_mainOutcome cfg env db ref budget href
                hdir rh hrh hemp2 sl hsl sm hsm
              rw [hmain, Except.ok.injEq] at h
              have hms : ms = (mainOutcome cfg env db ref budget rh sl sm.1).1 := by
                rw [h]
              have hst : st = (mainOutcome cfg env db ref budget rh sl sm.1).2.1 := by
                rw [h]
              have hsub : ∀ p ∈ sizeFilterStage cfg sm.1 (statsMapOf sl)
                  (candidatesStage env ref), p ∈ candidatesStage env ref :=
                sizeFilterStage_subset cfg sm.1 (statsMapOf sl)
                  (candidatesStage env ref)
              refine ⟨?_, hnot, sizeFilterStage cfg sm.1 (statsMapOf sl)
                (candidatesStage env ref), by rw [hst]; rfl,
                fun hc => hnot (hsub _ hc), hsub⟩
              intro m hm
              rw [hms] at hm
              have hm2 : m ∈ (rankStage rh cfg.threshold
                  ((runChunks (workerOf cfg env (statsMapOf sl)) cfg.hash_size
                      env.resolve cfg.use_cache
                      (chunksOf cfg.batch_size
                        (cacheStage cfg env.resolve db (statsMapOf sl)
                          (sizeFilterStage cfg sm.1 (statsMapOf sl)
                            (candidatesStage env ref))).2)
                      db budget).1
                    ++ (cacheStage cfg env.resolve db (statsMapOf sl)
                        (sizeFilterStage cfg sm.1 (statsMapOf sl)
                          (candidatesStage env ref))).1.map
                        (fun q => some q.2))).1 := hm
              rw [show (rankStage rh cfg.threshold _).1
                  = sortDesc (rankLoop rh cfg.threshold _).1 from rfl,
                (sortDesc_perm _).mem_iff, rankLoop_mem] at hm2
              obtain ⟨res, hres, _, hmk⟩ := hm2
              have hpath : res.path ∈ candidatesStage env ref := by
                rcases List.mem_append.mp hres with hrun | hcached
                · obtain ⟨p, hp, he⟩ := runChunks_results_mem _ _ _ _ _ _ _
                    (some res) hrun
                  have hrp : res.path = p :=
                    workerOf_path cfg env (statsMapOf sl) p res he.symm
                  rw [hrp]
                  exact hsub p (cacheStage_missing_subset _ _ _ _ _ p
                    (chunksOfAux_flatten_subset cfg.batch_size _ _ hp))
                · obtain ⟨q, hq, he⟩ := List.mem_map.mp hcached
                  have hqres : q.2 = res := Option.some.inj he
                  have hqq : (q.1, q.2) ∈ (cacheStage cfg env.resolve db
                      (statsMapOf sl) (sizeFilterStage cfg sm.1 (statsMapOf sl)
                        (candidatesStage env ref))).1 := by
                    simpa using hq
                  obtain ⟨hq1, hq2⟩ := cacheStage_dict_path _ _ _ _ _ _ _ hqq
                  rw [← hqres] at *
                  rw [hq2]
                  exact hsub _ hq1
              rw [hmk]
              show res.path ≠ env.resolve ref
              intro hcontra
              rw [hcontra] at hpath
              exact hnot hpath
    · unfold search at h
      rw [href] at h
      have : env.dirIsDir = false := by simpa using hdir
      rw [this] at h
      simp at h
  · have : env.refExists = false := by simpa using href
    unfold search at h
    rw [this] at h
    simp at h

theorem reference_excluded_witness :
    ∃ ms st db2, search cfgW envW [] "/w/ref.png" none = Except.ok (ms, st, db2)
      ∧ ∀ m ∈ ms, m.candidate ≠ envW.resolve "/w/ref.png" := by
  have hrun : search cfgW envW [] "/w/ref.png" none
      = Except.ok (([] : List MatchResult),
          ({ total_files := 1, images_scanned := 0, images_failed := 1,
             matches_found := 0 } : SearchStats), ([] : HashDB)) := rfl
  exact ⟨[], _, [],
    hrun, (reference_excluded cfgW envW [] "/w/ref.png" none [] _ [] hrun).1⟩

/-- Environment demonstrating the C3 bug: statting `/d/b.png` raises
`OSError`, while `/d/a.png` stats fine. -/
def env3 : FsEnv :=
  { resolve := fun p => p, refExists := true, dirIsDir := true,
    statO := fun p => if p = "/d/b.png" then none else some (10, 5),
    hashO := fun _ => some [true, true],
    listing := ["/d/a.png", "/d/b.png"] }

def cfg3 : SearchConfig :=
  { algorithm := .average, hash_size := 16, threshold := 90,
    use_cache := false, size_tolerance_pct := none, batch_size := 500 }

/-- Claim C3 (code bug): a failure to stat ONE file of a batch aborts the
whole batch and the whole search.  `_stat_path` has no exception
handling, `executor.map` re-raises the `OSError` when its iterator is
consumed at `engine.py:208`, and `search` has no handler around stage 3
— even though the callers guard against absent stat tuples with
`stats_map.get(p, default)` at `engine.py:219/236/247`, which is exactly
the "unknown metadata" path the claim (and `_stat_path`'s intended
contract) describes.  Here `/d/a.png` stats fine, yet the whole call
errors. -/
theorem stat_failure_aborts_search :
    env3.statO "/d/a.png" = some (10, 5)
    ∧ statCollect env3.statO ["/d/a.png", "/d/b.png"]
        = Except.error "/d/b.png"
    ∧ search cfg3 env3 [] "/d/ref.png" none
        = Except.error (SearchError.osError "/d/b.png") :=
  ⟨rfl, rfl, rfl⟩

/-- Environment demonstrating the C6 bug: one candidate whose stat call
raises after validation has passed. -/
def env6 : FsEnv :=
  { resolve := fun p => p, refExists := true, dirIsDir := true,
    statO := fun p => if p = "/photos/x.jpg" then none else some (20, 8),
    hashO := fun _ => some [false, true],
    listing := ["/photos/x.jpg"] }

def cfg6 : SearchConfig :=
  { algorithm := .perceptual, hash_size := 8, threshold := 95,
    use_cache := false, size_tolerance_pct := none, batch_size := 100 }

/-- Claim C6 (code bug): a third failure kind escapes the top-level call.
With both validation checks passing and the reference hashable, an
`OSError` from a candidate `stat` in stage 3 propagates out of `search` —
contradicting the claim and the function's own docstring, which lists
only `FileNotFoundError` and `ValueError` under `Raises:`. -/
theorem nonfatal_error_escapes_search :
    search cfg6 env6 [] "/photos/ref.jpg" none
        = Except.error (SearchError.osError "/photos/x.jpg")
    ∧ SearchError.osError "/photos/x.jpg" ≠ SearchError.refNotFound
    ∧ SearchError.osError "/photos/x.jpg" ≠ SearchError.dirNotFound
    ∧ SearchError.osError "/photos/x.jpg" ≠ SearchError.refUnhashable :=
  ⟨rfl, by decide, by decide, by decide⟩

/-- Claim C5 counterexample: with a stored metadata row whose
`file_count` is `0`, a matching fresh directory mtime, and (consistently)
zero persisted member rows, every condition of the claim holds, yet
`get_index` returns `none` instead of the stored (empty) member list. -/
theorem get_index_empty_counterexample :
    ([({ root := "/pics", dir_mtime := 5, file_count := 0, scanned_at := 9 }
        : DirMetaRow)].find? (fun q => q.root == "/pics")
      = some { root := "/pics", dir_mtime := 5, file_count := 0, scanned_at := 9 })
    ∧ (fun (_ : Path) => some (5 : Int)) "/pics" = some (5 : Int)
    ∧ (([] : List DirIndexRow).filter (fun r => r.root == "/pics")).length = 0
    ∧ get_index
        [{ root := "/pics", dir_mtime := 5, file_count := 0, scanned_at := 9 }]
        [] (fun p => p) (fun _ => some (5 : Int)) "/pics" = none := by
  refine ⟨by decide, rfl, by decide, by decide⟩

end PhotoFinder
